import Mathlib

/-!
# Verification of the `analyzeAlignments` FASTA alignment analysis core

Shallow embedding of the core of `ParseFASTA` (src/src/fastaParser.cpp,
src/include/fastaParser.hpp).  C++ `std::string` sequences are modelled as
`List Char`; the alignment store `fastaAlignment_`
(`std::vector<std::pair<std::string, std::string>>`) as a list of
header/sequence pairs; `std::unordered_map<std::string, uint32_t>` tallies as
association lists in first-insertion order; thrown exceptions as `Except`.
-/

namespace AnalyzeAlignments

/-- Error kinds of the core, following the taxonomy of the specification:
`rangeError` for out-of-bounds window requests (C++ `std::out_of_range`
from `std::string::substr`), `alignmentError` for invalid coordinates
returned by the external local-alignment collaborator. -/
inductive CppError where
  | rangeError : CppError
  | alignmentError : CppError
deriving DecidableEq

/-- `true` exactly when an operation failed (threw), regardless of kind. -/
def isFailure {α : Type} : Except CppError α → Bool
  | Except.error _ => true
  | Except.ok _ => false

/-- `true` exactly when an operation failed with `RangeError`. -/
def isRangeError {α : Type} : Except CppError α → Bool
  | Except.error CppError.rangeError => true
  | _ => false

/-- State of a `ParseFASTA` object: the private members `fastaAlignment_`
(header/sequence pairs in file order) and `consensus_`. -/
structure ParseFASTA where
  fastaAlignment : List (List Char × List Char)
  consensus : List Char
deriving DecidableEq

/-- `alignmentLength()`: the length of the first record's sequence
(`fastaAlignment_.at(0).second.size()`).  The C++ accessor throws on an
empty store; the model defaults to the empty record, and every theorem that
needs the real value carries the constructor's well-formedness invariant. -/
def alignLength (aln : List (List Char × List Char)) : Nat :=
  (aln.headD ([], [])).2.length

/-- Invariant established by the `ParseFASTA` file constructor: at least two
records, and all sequences share the first record's length. -/
def wellFormedAln (aln : List (List Char × List Char)) : Prop :=
  2 ≤ aln.length ∧ ∀ r ∈ aln, r.2.length = alignLength aln

instance (aln : List (List Char × List Char)) : Decidable (wellFormedAln aln) := by
  unfold wellFormedAln
  infer_instance

/-- The standard nucleotide set of `makeConsensus_` (includes `N`/`n`):
the C++ string literal "AaCcTtGgNn-". -/
def standardConsensusNucs : List Char :=
  ['A', 'a', 'C', 'c', 'T', 't', 'G', 'g', 'N', 'n', '-']

/-- The standard nucleotide set of `imputeMissing` (excludes `N`/`n`):
the C++ string literal "AaCcTtGg-". -/
def standardNucleotides : List Char :=
  ['A', 'a', 'C', 'c', 'T', 't', 'G', 'g', '-']

/-- Column `i` of the alignment: each record's symbol at position `i`
(`eachSeq.second.at(iNuc)`; the default is never reached under the
equal-length invariant with `i < alignLength`). -/
def column (aln : List (List Char × List Char)) (i : Nat) : List Char :=
  aln.map (fun r => r.2.getD i ' ')

/-- Fold mirroring `std::max_element` over the per-column tally map keyed by
`f`: keeps the incumbent unless the candidate's tally is strictly larger
(the C++ comparator is `count1.second < count2.second`, so `max_element`
returns the first of several equal maxima in iteration order). -/
def chooseMax (f : Char → Nat) (acc : Option Char) (ks : List Char) : Option Char :=
  ks.foldl
    (fun best c =>
      match best with
      | none => some c
      | some b => if f b < f c then some c else some b)
    acc

/-- The keys of the per-column tally map of `makeConsensus_`: the standard
symbols that occur at least once in the column.  (The C++ map's iteration
order is unspecified; the model fixes the order of `standardConsensusNucs`,
a choice the theorems never depend on beyond picking some maximizer.) -/
def presentStandard (col : List Char) : List Char :=
  standardConsensusNucs.filter (fun c => 0 < col.count c)

/-- The `max_element` step of `makeConsensus_` for one column:
`none` models the empty tally map (the iterator comparing equal to the
end/null iterator), in which case the caller pushes `'N'`. -/
def maxNucleotide (col : List Char) : Option Char :=
  chooseMax (fun c => col.count c) none (presentStandard col)

/-- Consensus symbol for column `i` of `makeConsensus_`. -/
def consensusChar (aln : List (List Char × List Char)) (i : Nat) : Char :=
  match maxNucleotide (column aln i) with
  | none => 'N'
  | some c => c

/-- `makeConsensus_()`: one consensus symbol per column `0 ≤ i < alignLength`. -/
def makeConsensus (aln : List (List Char × List Char)) : List Char :=
  (List.range (alignLength aln)).map (consensusChar aln)

/-- The file constructor's final state: stores the records and builds the
consensus with `makeConsensus_` (file parsing itself is out of scope here;
the records play the role of the already-validated parsed alignment). -/
def mkParseFASTA (records : List (List Char × List Char)) : ParseFASTA :=
  { fastaAlignment := records, consensus := makeConsensus records }

/-- `alignmentLength()` on the stored state. -/
def ParseFASTA.alignmentLength (p : ParseFASTA) : Nat :=
  alignLength p.fastaAlignment

/-- Well-formedness of the stored state. -/
def ParseFASTA.wellFormed (p : ParseFASTA) : Prop :=
  wellFormedAln p.fastaAlignment

instance (p : ParseFASTA) : Decidable p.wellFormed := by
  unfold ParseFASTA.wellFormed
  infer_instance

/-- `std::string::substr(pos, count)`: throws `std::out_of_range`
(spec: `RangeError`) exactly when `pos` exceeds the size; otherwise returns
at most `count` characters starting at `pos`, clamped to the available
remainder. -/
def cppSubstr (s : List Char) (pos count : Nat) : Except CppError (List Char) :=
  if s.length < pos then Except.error CppError.rangeError
  else Except.ok ((s.drop pos).take count)

/-- One `++sequenceTable[key]` step on the association-list model of
`std::unordered_map<std::string, uint32_t>`: increment an existing key's
count or append the key with count 1 (first-insertion order). -/
def tallyInsert (t : List (List Char × Nat)) (k : List Char) : List (List Char × Nat) :=
  match t with
  | [] => [(k, 1)]
  | (k₀, n) :: rest => if k₀ = k then (k₀, n + 1) :: rest else (k₀, n) :: tallyInsert rest k

/-- Tally of a list of keys, starting from the empty map. -/
def tallyList (ks : List (List Char)) : List (List Char × Nat) :=
  ks.foldl tallyInsert []

/-- The sum of the occurrence counts of a tally. -/
def sumCounts (t : List (List Char × Nat)) : Nat :=
  (t.map Prod.snd).sum

/-- `extractWindow(windowStartPosition, windowSize)`: tallies every record's
`substr(windowStartPosition, windowSize)`; the first record whose `substr`
throws aborts the whole call (C++ exception propagation). -/
def ParseFASTA.extractWindow (p : ParseFASTA) (start size : Nat) :
    Except CppError (List (List Char × Nat)) :=
  p.fastaAlignment.foldlM
    (fun t r => (cppSubstr r.2 start size).map (fun w => tallyInsert t w)) []

/-- `extractConsensusWindow(startIdx, windowLength)`: the source performs an
unchecked `std::copy_n` from `consensus_.cbegin() + startIdx` with no bounds
test and no `throw` statement; an out-of-bounds request is undefined
behaviour (reading past the end), never a `RangeError`.  The model returns
the characters available in range; the essential modelled fact is the
absence of any error path. -/
def ParseFASTA.extractConsensusWindow (p : ParseFASTA) (startIdx windowLength : Nat) :
    Except CppError (List Char) :=
  Except.ok ((p.consensus.drop startIdx).take windowLength)

/-- The per-character step of `imputeMissing`'s `std::transform` lambda:
keep `nuc` when it is in "AaCcTtGg-", otherwise substitute the consensus
symbol `cons` at the same column. -/
def imputeChar (nuc cons : Char) : Char :=
  if standardNucleotides.contains nuc then nuc else cons

/-- `imputeMissing`'s `std::transform` over one record's sequence, walking
the sequence and the consensus in lockstep. -/
def imputeSeq (s cons : List Char) : List Char :=
  List.zipWith imputeChar s cons

/-- `imputeMissing()`: rewrites every record in place; the consensus member
is not recomputed. -/
def ParseFASTA.imputeMissing (p : ParseFASTA) : ParseFASTA :=
  { fastaAlignment := p.fastaAlignment.map (fun r => (r.1, imputeSeq r.2 p.consensus)),
    consensus := p.consensus }

/-- The coordinates of the result of `StripedSmithWaterman::Aligner::Align`
inspected by `extractSequence` (C++ `int32_t` fields, modelled as `Int`). -/
structure SswAlignment where
  ref_begin : Int
  ref_end : Int
  query_begin : Int
  query_end : Int

/-- `AlignmentStatistics` (all fields C++ `size_t`). -/
structure AlignmentStatistics where
  referenceStart : Nat
  referenceLength : Nat
  queryStart : Nat
  queryLength : Nat
deriving DecidableEq

/-- The validation-and-packaging tail of `extractSequence`: checks the four
coordinate invariants in source order, throwing `AlignmentError` on the
first violation, then casts the begin coordinates and the end-minus-begin
differences to `size_t`.  (The call into the external aligner itself is the
out-of-scope collaborator; its result is this function's input.) -/
def extractSequence (al : SswAlignment) : Except CppError AlignmentStatistics :=
  if al.ref_begin < 0 then Except.error CppError.alignmentError
  else if al.ref_end < al.ref_begin then Except.error CppError.alignmentError
  else if al.query_begin < 0 then Except.error CppError.alignmentError
  else if al.query_end < al.query_begin then Except.error CppError.alignmentError
  else Except.ok
    { referenceStart := al.ref_begin.toNat,
      referenceLength := (al.ref_end - al.ref_begin).toNat,
      queryStart := al.query_begin.toNat,
      queryLength := (al.query_end - al.query_begin).toNat }

/-- The tally of one window of `diversityInWindows`, reduced to its counts
vector (the map's values; key order is immaterial to the claims). -/
def windowCounts (aln : List (List Char × List Char)) (ws wS : Nat) : List Nat :=
  (tallyList (aln.map (fun r => (r.2.drop ws).take wS))).map Prod.snd

/-- The `while (windowEnd < alignmentLength())` loop of `diversityInWindows`,
step-indexed by fuel: `none` means the fuel ran out with the guard still
true (the C++ loop would keep running), `some` is the produced vector.
Inside the loop `substr` cannot throw and cannot truncate because the guard
pre-checks `windowStart + windowSize < L`, so the window is taken directly. -/
def diversityLoop (aln : List (List Char × List Char)) (L wS sS : Nat) :
    Nat → Nat → Option (List (Nat × List Nat))
  | 0, ws => if ws + wS < L then none else some []
  | fuel + 1, ws =>
      if ws + wS < L then
        match diversityLoop aln L wS sS fuel (ws + sS) with
        | none => none
        | some rest => some ((ws, windowCounts aln ws wS) :: rest)
      else some []

/-- `diversityInWindows(windowSize, stepSize)`.  Fuel `alignmentLength + 1`
is ample whenever `stepSize > 0` (the guard forces `windowStart < L` and
the start strictly increases); `none` models the non-terminating
`stepSize = 0` loop. -/
def ParseFASTA.diversityInWindows (p : ParseFASTA) (wS sS : Nat) :
    Option (List (Nat × List Nat)) :=
  diversityLoop p.fastaAlignment p.alignmentLength wS sS (p.alignmentLength + 1) 0

/-- Modelled from the spec: `extractWindowSorted(windowStartPosition,
windowSize)` is declared at src/include/fastaParser.hpp line 140 but its
implementation is absent from the repository sources.  Per spec section 4.4 it
returns the `extractWindow` table as (sequence, count) pairs sorted by count
in descending order, deterministically on identical input; the model sorts
the tally with a stable insertion sort on the count-descending relation. -/
def ParseFASTA.extractWindowSorted (p : ParseFASTA) (start size : Nat) :
    Except CppError (List (List Char × Nat)) :=
  (p.extractWindow start size).map
    (fun t => t.insertionSort (fun a b => b.2 ≤ a.2))

/-- The three-record alignment of spec section 8 (scenarios 7 and 8):
length 10, consensus "AACCGGTTAA". -/
def demoRecords : List (List Char × List Char) :=
  [ (['s', '1'], ['A', 'A', 'C', 'C', 'G', 'G', 'T', 'T', 'A', 'A']),
    (['s', '2'], ['A', 'A', 'C', 'C', 'G', 'G', 'T', 'T', 'A', 'A']),
    (['s', '3'], ['A', 'A', 'C', 'C', 'G', 'G', 'T', 'T', 'G', 'G']) ]

/-- The demo alignment parsed: records plus built consensus. -/
def demoParse : ParseFASTA := mkParseFASTA demoRecords

/-- A variant of the demo with one missing symbol ('N' at column 1 of the
first record), for exercising imputation. -/
def demoMissing : ParseFASTA := mkParseFASTA
  [ (['s', '1'], ['A', 'N', 'C', 'C', 'G', 'G', 'T', 'T', 'A', 'A']),
    (['s', '2'], ['A', 'A', 'C', 'C', 'G', 'G', 'T', 'T', 'A', 'A']),
    (['s', '3'], ['A', 'A', 'C', 'C', 'G', 'G', 'T', 'T', 'G', 'G']) ]

/-! ## Helper lemmas -/

/-- The imputation step is idempotent per character: a second pass over an
already-imputed symbol changes nothing. -/
lemma imputeChar_idem (a b : Char) : imputeChar (imputeChar a b) b = imputeChar a b := by
  unfold imputeChar
  by_cases h : standardNucleotides.contains a = true
  · rw [if_pos h, if_pos h]
  · rw [if_neg h, ite_self]

/-- The per-sequence imputation is idempotent against a fixed consensus. -/
lemma imputeSeq_idem (s cons : List Char) : imputeSeq (imputeSeq s cons) cons = imputeSeq s cons := by
  unfold imputeSeq
  induction s generalizing cons with
  | nil => simp
  | cons a s ih =>
      cases cons with
      | nil => simp
      | cons b cs => simp [List.zipWith, imputeChar_idem, ih]

/-- When `start` is within every sequence, the exception-propagating fold of
`extractWindow` reduces to a pure fold of clamped-substring tallies. -/
lemma extractFold_ok (start size : Nat) :
    ∀ (aln : List (List Char × List Char)) (init : List (List Char × Nat)),
      (∀ r ∈ aln, start ≤ r.2.length) →
      (aln.foldlM (fun t r => (cppSubstr r.2 start size).map (fun w => tallyInsert t w))
          init : Except CppError _) =
        Except.ok (aln.foldl (fun t r => tallyInsert t ((r.2.drop start).take size)) init) := by
  intro aln
  induction aln with
  | nil => intro init h; rfl
  | cons r rs ih =>
      intro init h
      have hr : start ≤ r.2.length := h r (List.mem_cons_self r rs)
      have hrs : ∀ x ∈ rs, start ≤ x.2.length := fun x hx => h x (List.mem_cons_of_mem r hx)
      simp only [List.foldlM_cons, cppSubstr, if_neg (by omega : ¬r.2.length < start),
        Except.map, List.foldl_cons]
      exact ih (tallyInsert init ((r.2.drop start).take size)) hrs

/-- Incrementing one key adds exactly one to the total count. -/
lemma sumCounts_tallyInsert (t : List (List Char × Nat)) (k : List Char) :
    sumCounts (tallyInsert t k) = sumCounts t + 1 := by
  induction t with
  | nil => rfl
  | cons e rest ih =>
      obtain ⟨k₀, n⟩ := e
      by_cases hk : k₀ = k
      · simp [tallyInsert, hk, sumCounts]
        omega
      · simp [tallyInsert, hk, sumCounts] at ih ⊢
        omega

/-- The total count of a tally equals the number of tallied keys. -/
lemma sumCounts_tallyList (ks : List (List Char)) :
    sumCounts (tallyList ks) = ks.length := by
  suffices h : ∀ init, sumCounts (ks.foldl tallyInsert init) = sumCounts init + ks.length by
    simpa [tallyList, sumCounts] using h []
  induction ks with
  | nil => intro init; simp
  | cons k rest ih =>
      intro init
      simp only [List.foldl_cons, ih, sumCounts_tallyInsert, List.length_cons]
      omega

/-- Every key of a tally was one of the tallied keys. -/
lemma tallyInsert_keys (t : List (List Char × Nat)) (k : List Char) :
    ∀ e ∈ tallyInsert t k, e.1 = k ∨ ∃ e' ∈ t, e'.1 = e.1 := by
  induction t with
  | nil =>
      intro e he
      simp only [tallyInsert, List.mem_singleton] at he
      subst he
      exact Or.inl rfl
  | cons f rest ih =>
      obtain ⟨k₀, n⟩ := f
      intro e he
      by_cases hk : k₀ = k
      · simp only [tallyInsert, if_pos hk, List.mem_cons] at he
        rcases he with he | he
        · subst he; exact Or.inl hk
        · exact Or.inr ⟨e, List.mem_cons_of_mem _ he, rfl⟩
      · simp only [tallyInsert, if_neg hk, List.mem_cons] at he
        rcases he with he | he
        · subst he; exact Or.inr ⟨(k₀, n), List.mem_cons_self _ _, rfl⟩
        · rcases ih e he with h | ⟨e', he', heq⟩
          · exact Or.inl h
          · exact Or.inr ⟨e', List.mem_cons_of_mem _ he', heq⟩

/-- Every key of `tallyList ks` is a member of `ks`. -/
lemma tallyList_keys (ks : List (List Char)) :
    ∀ e ∈ tallyList ks, e.1 ∈ ks := by
  suffices h : ∀ init, ∀ e ∈ ks.foldl tallyInsert init,
      (∃ e' ∈ init, e'.1 = e.1) ∨ e.1 ∈ ks by
    intro e he
    rcases h [] e he with ⟨e', he', _⟩ | h
    · simp at he'
    · exact h
  induction ks with
  | nil =>
      intro init e he
      exact Or.inl ⟨e, he, rfl⟩
  | cons k rest ih =>
      intro init e he
      simp only [List.foldl_cons] at he
      rcases ih (tallyInsert init k) e he with ⟨e', he', heq⟩ | h
      · rcases tallyInsert_keys init k e' he' with h | ⟨e₀, he₀, heq₀⟩
        · exact Or.inr (by simp [← heq, h])
        · exact Or.inl ⟨e₀, he₀, heq₀.trans heq⟩
      · exact Or.inr (List.mem_cons_of_mem _ h)

/-- Everything the scan loop guarantees about a run that returned: starts
form the arithmetic progression `ws, ws + sS, …`, every emitted window
passes the strict guard and carries that window's tally counts, and the
loop did not stop while the guard still held. -/
lemma diversityLoop_spec (aln : List (List Char × List Char)) (L wS sS : Nat) :
    ∀ (fuel ws : Nat) (res : List (Nat × List Nat)),
      diversityLoop aln L wS sS fuel ws = some res →
      (∀ i (h : i < res.length), (res.get ⟨i, h⟩).1 = ws + i * sS) ∧
      (∀ e ∈ res, e.1 + wS < L ∧ e.2 = windowCounts aln e.1 wS) ∧
      (∀ k, ws + k * sS + wS < L → k < res.length) := by
  intro fuel
  induction fuel with
  | zero =>
      intro ws res h
      by_cases hg : ws + wS < L
      · simp [diversityLoop, if_pos hg] at h
      · simp only [diversityLoop, if_neg hg, Option.some.injEq] at h
        subst h
        refine ⟨?_, ?_, ?_⟩
        · intro i hi; simp at hi
        · intro e he; simp at he
        · intro k hk
          exact absurd (Nat.lt_of_le_of_lt
            (Nat.add_le_add_right (Nat.le_add_right ws (k * sS)) wS) hk) hg
  | succ fuel ih =>
      intro ws res h
      by_cases hg : ws + wS < L
      · simp only [diversityLoop, if_pos hg] at h
        cases hrec : diversityLoop aln L wS sS fuel (ws + sS) with
        | none => rw [hrec] at h; simp at h
        | some rest =>
            rw [hrec] at h
            simp only [Option.some.injEq] at h
            subst h
            obtain ⟨ih1, ih2, ih3⟩ := ih (ws + sS) rest hrec
            refine ⟨?_, ?_, ?_⟩
            · intro i hi
              cases i with
              | zero => simp
              | succ i =>
                  have hi₀ : i < rest.length := by simpa using hi
                  have := ih1 i hi₀
                  simp only [List.get_cons_succ]
                  rw [this]
                  ring
            · intro e he
              rcases List.mem_cons.mp he with he | he
              · subst he; exact ⟨hg, rfl⟩
              · exact ih2 e he
            · intro k hk
              cases k with
              | zero => simp
              | succ k =>
                  have hk₀ : ws + sS + k * sS + wS < L := by
                    have harith : ws + sS + k * sS + wS = ws + (k + 1) * sS + wS := by ring
                    rw [harith]
                    exact hk
                  have := ih3 k hk₀
                  simpa using Nat.succ_lt_succ this
      · simp only [diversityLoop, if_neg hg, Option.some.injEq] at h
        subst h
        refine ⟨?_, ?_, ?_⟩
        · intro i hi; simp at hi
        · intro e he; simp at he
        · intro k hk
          exact absurd (Nat.lt_of_le_of_lt
            (Nat.add_le_add_right (Nat.le_add_right ws (k * sS)) wS) hk) hg

/-- With a positive step, fuel covering the remaining distance to `L`
suffices for the scan loop to run to completion. -/
lemma diversityLoop_terminates (aln : List (List Char × List Char)) (L wS sS : Nat)
    (hs : 0 < sS) :
    ∀ (fuel ws : Nat), L ≤ ws + fuel →
      (diversityLoop aln L wS sS fuel ws).isSome = true := by
  intro fuel
  induction fuel with
  | zero =>
      intro ws hfuel
      have hg : ¬ws + wS < L := by omega
      simp [diversityLoop, if_neg hg]
  | succ fuel ih =>
      intro ws hfuel
      by_cases hg : ws + wS < L
      · have := ih (ws + sS) (by omega)
        simp only [diversityLoop, if_pos hg]
        cases hrec : diversityLoop aln L wS sS fuel (ws + sS) with
        | none => rw [hrec] at this; simp at this
        | some rest => simp
      · simp [diversityLoop, if_neg hg]

/-- With step 0 and the guard initially true, no amount of fuel makes the
scan loop return: the window start never advances. -/
lemma diversityLoop_stuck (aln : List (List Char × List Char)) (L wS : Nat) :
    ∀ (fuel ws : Nat), ws + wS < L →
      diversityLoop aln L wS 0 fuel ws = none := by
  intro fuel
  induction fuel with
  | zero =>
      intro ws hg
      simp [diversityLoop, if_pos hg]
  | succ fuel ih =>
      intro ws hg
      have := ih ws hg
      simp only [diversityLoop, if_pos hg, Nat.add_zero, this]

/-- Whatever the `max_element` fold returns, starting from incumbent `b`:
it is the incumbent or a candidate, it weakly beats the incumbent, and it
weakly beats every candidate. -/
lemma chooseMax_some_spec (f : Char → Nat) :
    ∀ (ks : List Char) (b c : Char), chooseMax f (some b) ks = some c →
      (c = b ∨ c ∈ ks) ∧ f b ≤ f c ∧ ∀ d ∈ ks, f d ≤ f c := by
  intro ks
  induction ks with
  | nil =>
      intro b c h
      simp only [chooseMax, List.foldl_nil, Option.some.injEq] at h
      subst h
      exact ⟨Or.inl rfl, Nat.le_refl _, by simp⟩
  | cons k ks ih =>
      intro b c h
      simp only [chooseMax, List.foldl_cons] at h
      by_cases hbk : f b < f k
      · rw [if_pos hbk] at h
        obtain ⟨hmem, hle, hall⟩ := ih k c h
        refine ⟨?_, ?_, ?_⟩
        · rcases hmem with hm | hm
          · exact Or.inr (by simp [hm])
          · exact Or.inr (List.mem_cons_of_mem k hm)
        · exact Nat.le_trans (Nat.le_of_lt hbk) hle
        · intro d hd
          rcases List.mem_cons.mp hd with hd | hd
          · subst hd; exact hle
          · exact hall d hd
      · rw [if_neg hbk] at h
        obtain ⟨hmem, hle, hall⟩ := ih b c h
        refine ⟨?_, hle, ?_⟩
        · rcases hmem with hm | hm
          · exact Or.inl hm
          · exact Or.inr (List.mem_cons_of_mem k hm)
        · intro d hd
          rcases List.mem_cons.mp hd with hd | hd
          · subst hd
            exact Nat.le_trans (Nat.le_of_not_lt hbk) hle
          · exact hall d hd

/-- The fold starting from an incumbent always returns something. -/
lemma chooseMax_some_isSome (f : Char → Nat) :
    ∀ (ks : List Char) (b : Char), ∃ c, chooseMax f (some b) ks = some c := by
  intro ks
  induction ks with
  | nil => intro b; exact ⟨b, rfl⟩
  | cons k ks ih =>
      intro b
      simp only [chooseMax, List.foldl_cons]
      by_cases hbk : f b < f k
      · rw [if_pos hbk]; exact ih k
      · rw [if_neg hbk]; exact ih b

/-- A `max_element` result over a nonempty key list is a maximizing key. -/
lemma chooseMax_none_spec (f : Char → Nat) (ks : List Char) (c : Char)
    (h : chooseMax f none ks = some c) :
    c ∈ ks ∧ ∀ d ∈ ks, f d ≤ f c := by
  cases ks with
  | nil => simp [chooseMax] at h
  | cons k ks =>
      have h₀ : chooseMax f (some k) ks = some c := h
      obtain ⟨hmem, hle, hall⟩ := chooseMax_some_spec f ks k c h₀
      refine ⟨?_, ?_⟩
      · rcases hmem with hm | hm
        · simp [hm]
        · exact List.mem_cons_of_mem k hm
      · intro d hd
        rcases List.mem_cons.mp hd with hd | hd
        · subst hd; exact hle
        · exact hall d hd

/-- The `max_element` fold returns nothing exactly on the empty key list
(the empty tally map). -/
lemma chooseMax_none_eq_none (f : Char → Nat) (ks : List Char) :
    chooseMax f none ks = none ↔ ks = [] := by
  cases ks with
  | nil => simp [chooseMax]
  | cons k ks =>
      constructor
      · intro h
        obtain ⟨c, hc⟩ := chooseMax_some_isSome f ks k
        have h₀ : chooseMax f (some k) ks = (none : Option Char) := h
        rw [h₀] at hc
        exact absurd hc (by simp)
      · intro h
        exact absurd h (by simp)

/-- A symbol occurring in a column and standard is a key of the column's
tally map. -/
lemma mem_presentStandard (col : List Char) (x : Char)
    (hstd : x ∈ standardConsensusNucs) (hocc : 0 < col.count x) :
    x ∈ presentStandard col := by
  rw [presentStandard, List.mem_filter]
  exact ⟨hstd, by simpa using hocc⟩

/-- Pointwise view of the lockstep `std::transform` of `imputeMissing`. -/
lemma imputeSeq_getD (s cons : List Char) (i : Nat)
    (h1 : i < s.length) (h2 : i < cons.length) :
    (imputeSeq s cons).getD i ' ' = imputeChar (s.getD i ' ') (cons.getD i ' ') := by
  induction s generalizing cons i with
  | nil => simp at h1
  | cons a s ih =>
      cases cons with
      | nil => simp at h2
      | cons b cs =>
          cases i with
          | zero => rfl
          | succ i =>
              have hs : imputeSeq (a :: s) (b :: cs) = imputeChar a b :: imputeSeq s cs := rfl
              rw [hs, List.getD_cons_succ, List.getD_cons_succ, List.getD_cons_succ]
              exact ih cs i (by simpa using h1) (by simpa using h2)

/-- The record at index `k` after imputation is the record before, with its
sequence imputed against the consensus. -/
lemma imputeMissing_getD (aln : List (List Char × List Char)) (cons : List Char)
    (k : Nat) (hk : k < aln.length) :
    (aln.map (fun r => (r.1, imputeSeq r.2 cons))).getD k ([], []) =
      ((aln.getD k ([], [])).1, imputeSeq (aln.getD k ([], [])).2 cons) := by
  induction aln generalizing k with
  | nil => simp at hk
  | cons r rs ih =>
      cases k with
      | zero => rfl
      | succ k =>
          simp only [List.map_cons, List.getD_cons_succ]
          exact ih k (by simpa using hk)

/-- The count-descending comparison on table entries is total. -/
instance : IsTotal (List Char × Nat) (fun a b => b.2 ≤ a.2) :=
  ⟨fun a b => Nat.le_total b.2 a.2⟩

/-- The count-descending comparison on table entries is transitive. -/
instance : IsTrans (List Char × Nat) (fun a b => b.2 ≤ a.2) :=
  ⟨fun _ _ _ hab hbc => Nat.le_trans hbc hab⟩

/-! ## Claim theorems -/

/-- C2: for every well-formed stored alignment, `extractWindow(start, size)`
fails with `RangeError` exactly when `start` exceeds the sequence length;
when `start` is in bounds it succeeds — even if `start + size` overruns the
end — and tallies the substrings clamped to the available remainder, each
tallied key having length `min size (L - start)` (shorter than requested
whenever `start + size > L`). -/
theorem extractWindow_spec (p : ParseFASTA) (hwf : p.wellFormed) (start size : Nat) :
    (isRangeError (p.extractWindow start size) = true ↔ p.alignmentLength < start) ∧
    (start ≤ p.alignmentLength →
      p.extractWindow start size =
        Except.ok (tallyList (p.fastaAlignment.map (fun r => (r.2.drop start).take size))) ∧
      ∀ e ∈ tallyList (p.fastaAlignment.map (fun r => (r.2.drop start).take size)),
        e.1.length = min size (p.alignmentLength - start)) := by
  obtain ⟨hlen, heq⟩ := hwf
  have hok : start ≤ p.alignmentLength →
      p.extractWindow start size =
        Except.ok (tallyList (p.fastaAlignment.map (fun r => (r.2.drop start).take size))) := by
    intro hs
    unfold ParseFASTA.extractWindow
    rw [extractFold_ok start size p.fastaAlignment []
      (fun r hr => by rw [heq r hr]; exact hs)]
    congr 1
    rw [tallyList, List.foldl_map]
  constructor
  · constructor
    · intro herr
      by_contra hc
      rw [hok (by omega)] at herr
      simp [isRangeError] at herr
    · intro hlt
      obtain ⟨r, rs, hcons⟩ : ∃ r rs, p.fastaAlignment = r :: rs := by
        cases hal : p.fastaAlignment with
        | nil => rw [hal] at hlen; simp at hlen
        | cons r rs => exact ⟨r, rs, rfl⟩
      have hr : r.2.length < start := by
        rw [heq r (by rw [hcons]; exact List.mem_cons_self r rs)]
        exact hlt
      unfold ParseFASTA.extractWindow
      rw [hcons]
      simp only [List.foldlM_cons, cppSubstr, if_pos hr, Except.map, isRangeError]
      rfl
  · intro hs
    refine ⟨hok hs, ?_⟩
    intro e he
    have hkey := tallyList_keys _ e he
    obtain ⟨r, hr, hrk⟩ := List.mem_map.mp hkey
    rw [← hrk, List.length_take, List.length_drop, heq r hr]
    rfl

/-- Witness for C2 on the demo alignment (L = 10): start 20 is rejected
with `RangeError`, while the overrunning window (8, 4) succeeds with the
clamped tally. -/
theorem extractWindow_spec_witness :
    isRangeError (demoParse.extractWindow 20 4) = true ∧
      demoParse.extractWindow 8 4 =
        Except.ok (tallyList (demoParse.fastaAlignment.map
          (fun r => (r.2.drop 8).take 4))) := by
  constructor
  · exact (extractWindow_spec demoParse (by decide) 20 4).1.mpr (by decide)
  · exact ((extractWindow_spec demoParse (by decide) 8 4).2 (by decide)).1

/-- C3: for every well-formed alignment with N records, the counts of every
`extractWindow` table over an in-bounds window sum to exactly N, and so do
the counts of every window emitted by `diversityInWindows` — the window
substrings partition the records. -/
theorem counts_sum_to_records (p : ParseFASTA) (hwf : p.wellFormed) :
    (∀ start size t, start + size ≤ p.alignmentLength →
      p.extractWindow start size = Except.ok t →
      sumCounts t = p.fastaAlignment.length) ∧
    (∀ wS sS res, p.diversityInWindows wS sS = some res →
      ∀ e ∈ res, e.2.sum = p.fastaAlignment.length) := by
  obtain ⟨hlen, heq⟩ := hwf
  constructor
  · intro start size t hb hok
    rw [ParseFASTA.extractWindow, extractFold_ok start size p.fastaAlignment []
      (fun r hr => by
        rw [heq r hr]
        exact Nat.le_trans (Nat.le_add_right start size) hb)] at hok
    injection hok with hok
    subst hok
    have hfold : p.fastaAlignment.foldl
        (fun t r => tallyInsert t ((r.2.drop start).take size)) [] =
        tallyList (p.fastaAlignment.map (fun r => (r.2.drop start).take size)) := by
      rw [tallyList, List.foldl_map]
    rw [hfold, sumCounts_tallyList, List.length_map]
  · intro wS sS res hres e he
    have hspec := (diversityLoop_spec p.fastaAlignment p.alignmentLength wS sS
      (p.alignmentLength + 1) 0 res hres).2.1 e he
    rw [hspec.2]
    have : windowCounts p.fastaAlignment e.1 wS =
        (tallyList (p.fastaAlignment.map (fun r => (r.2.drop e.1).take wS))).map
          Prod.snd := rfl
    rw [this]
    have hsum : ((tallyList (p.fastaAlignment.map
        (fun r => (r.2.drop e.1).take wS))).map Prod.snd).sum =
        sumCounts (tallyList (p.fastaAlignment.map
          (fun r => (r.2.drop e.1).take wS))) := rfl
    rw [hsum, sumCounts_tallyList, List.length_map]

/-- Witness for C3: the demo window (6, 4) tallies to counts 2 and 1
summing to the 3 records, and every window of the demo diversity scan
(4, 2) sums to 3 as well. -/
theorem counts_sum_to_records_witness :
    sumCounts [(['T', 'T', 'A', 'A'], 2), (['T', 'T', 'G', 'G'], 1)] =
      demoParse.fastaAlignment.length ∧
    ∀ e ∈ [((0 : Nat), [(3 : Nat)]), (2, [3]), (4, [3])],
      e.2.sum = demoParse.fastaAlignment.length := by
  constructor
  · exact (counts_sum_to_records demoParse (by decide)).1 6 4 _ (by decide) rfl
  · exact (counts_sum_to_records demoParse (by decide)).2 4 2 _ rfl

/-- C4: for every alignment of length L and positive step, the scan emits
exactly the start positions `0, sS, 2·sS, …` for as long as
`start + windowSize < L` holds strictly, in strictly increasing order, and
emits nothing when `windowSize ≥ L`. -/
theorem diversityInWindows_starts (p : ParseFASTA) (wS sS : Nat) (hs : 0 < sS) :
    ∃ res, p.diversityInWindows wS sS = some res ∧
      (∀ i (h : i < res.length), (res.get ⟨i, h⟩).1 = i * sS) ∧
      (∀ e ∈ res, e.1 + wS < p.alignmentLength) ∧
      (∀ k, k * sS + wS < p.alignmentLength → k < res.length) ∧
      (∀ i j (hi : i < res.length) (hj : j < res.length), i < j →
        (res.get ⟨i, hi⟩).1 < (res.get ⟨j, hj⟩).1) ∧
      (p.alignmentLength ≤ wS → res = []) := by
  have hterm := diversityLoop_terminates p.fastaAlignment p.alignmentLength wS sS hs
    (p.alignmentLength + 1) 0 (by omega)
  obtain ⟨res, hres⟩ := Option.isSome_iff_exists.mp hterm
  obtain ⟨h1, h2, h3⟩ := diversityLoop_spec p.fastaAlignment p.alignmentLength wS sS
    (p.alignmentLength + 1) 0 res hres
  refine ⟨res, hres, ?_, ?_, ?_, ?_, ?_⟩
  · intro i hi
    have := h1 i hi
    omega
  · intro e he
    exact (h2 e he).1
  · intro k hk
    exact h3 k (by omega)
  · intro i j hi hj hij
    have hgi := h1 i hi
    have hgj := h1 j hj
    rw [hgi, hgj]
    have : i * sS < j * sS := Nat.mul_lt_mul_of_pos_right hij hs
    omega
  · intro hL
    have hg : ¬0 + wS < p.alignmentLength := by omega
    simp only [diversityLoop, if_neg hg, Option.some.injEq] at hres
    exact hres.symm

/-- Witness for C4: spec scenario 8, `diversityInWindows(4, 2)` on the demo
alignment (L = 10) emits exactly the starts 0, 2, 4. -/
theorem diversityInWindows_starts_witness :
    ∃ res, demoParse.diversityInWindows 4 2 = some res ∧
      (∀ i (h : i < res.length), (res.get ⟨i, h⟩).1 = i * 2) ∧
      (∀ e ∈ res, e.1 + 4 < demoParse.alignmentLength) ∧
      (∀ k, k * 2 + 4 < demoParse.alignmentLength → k < res.length) ∧
      (∀ i j (hi : i < res.length) (hj : j < res.length), i < j →
        (res.get ⟨i, hi⟩).1 < (res.get ⟨j, hj⟩).1) ∧
      (demoParse.alignmentLength ≤ 4 → res = []) :=
  diversityInWindows_starts demoParse 4 2 (by decide)

/-- C10: the scan terminates for every positive step (fuel `L + 1` is
enough), while for step 0 with `windowSize < L` the loop never advances its
window start and no amount of fuel lets it return — a non-termination the
public interface does not warn about. -/
theorem diversityInWindows_termination (p : ParseFASTA) (wS sS : Nat) :
    (0 < sS → (p.diversityInWindows wS sS).isSome = true) ∧
    (sS = 0 → wS < p.alignmentLength →
      (∀ fuel ws, ws + wS < p.alignmentLength →
        diversityLoop p.fastaAlignment p.alignmentLength wS sS fuel ws = none) ∧
      p.diversityInWindows wS sS = none) := by
  constructor
  · intro hs
    exact diversityLoop_terminates p.fastaAlignment p.alignmentLength wS sS hs
      (p.alignmentLength + 1) 0 (by omega)
  · intro hz hw
    subst hz
    refine ⟨fun fuel ws hg => diversityLoop_stuck p.fastaAlignment p.alignmentLength
      wS fuel ws hg, ?_⟩
    exact diversityLoop_stuck p.fastaAlignment p.alignmentLength wS
      (p.alignmentLength + 1) 0 (by omega)

/-- Witness for C10 on the demo alignment: step 1 terminates, step 0 with
window size 4 < 10 does not. -/
theorem diversityInWindows_termination_witness :
    (demoParse.diversityInWindows 4 1).isSome = true ∧
      demoParse.diversityInWindows 4 0 = none :=
  ⟨(diversityInWindows_termination demoParse 4 1).1 (by decide),
   ((diversityInWindows_termination demoParse 4 0).2 rfl (by decide)).2⟩

/-- C9: whenever `extractWindow` succeeds on a window, `extractWindowSorted`
succeeds on the same window with a permutation of the same (sequence, count)
table — the same multiset of data — ordered by count in descending order;
being a pure function of the stored state, it returns the identical ordering
on every repeated call on identical input. -/
theorem extractWindowSorted_spec (p : ParseFASTA) (start size : Nat)
    (t : List (List Char × Nat)) (h : p.extractWindow start size = Except.ok t) :
    ∃ st, p.extractWindowSorted start size = Except.ok st ∧
      st.Perm t ∧ st.Sorted (fun a b => b.2 ≤ a.2) := by
  refine ⟨t.insertionSort (fun a b => b.2 ≤ a.2), ?_, ?_, ?_⟩
  · unfold ParseFASTA.extractWindowSorted
    rw [h]
    rfl
  · exact List.perm_insertionSort _ t
  · exact List.sorted_insertionSort _ t

/-- Witness for C9 on the demo window (6, 4): the sorted table is a
count-descending permutation of the unsorted table {TTAA ↦ 2, TTGG ↦ 1}. -/
theorem extractWindowSorted_spec_witness :
    ∃ st, demoParse.extractWindowSorted 6 4 = Except.ok st ∧
      st.Perm [(['T', 'T', 'A', 'A'], 2), (['T', 'T', 'G', 'G'], 1)] ∧
      st.Sorted (fun a b => b.2 ≤ a.2) :=
  extractWindowSorted_spec demoParse 6 4
    [(['T', 'T', 'A', 'A'], 2), (['T', 'T', 'G', 'G'], 1)] rfl

/-- C5: for every well-formed alignment of length L, the built consensus
has length exactly L, and each column's symbol is either a standard symbol
of maximal tally among the standard symbols of that column (occurring at
least once there), or `'N'` when no record has a standard symbol in that
column. -/
theorem makeConsensus_spec (aln : List (List Char × List Char)) (hwf : wellFormedAln aln) :
    (makeConsensus aln).length = alignLength aln ∧
    ∀ i (h : i < (makeConsensus aln).length),
      ((makeConsensus aln).get ⟨i, h⟩ = 'N' ∧
        ∀ r ∈ aln, r.2.getD i ' ' ∉ standardConsensusNucs) ∨
      ((makeConsensus aln).get ⟨i, h⟩ ∈ standardConsensusNucs ∧
        0 < (column aln i).count ((makeConsensus aln).get ⟨i, h⟩) ∧
        ∀ d ∈ standardConsensusNucs,
          (column aln i).count d ≤ (column aln i).count ((makeConsensus aln).get ⟨i, h⟩)) := by
  have hlen : (makeConsensus aln).length = alignLength aln := by
    simp [makeConsensus]
  have hget : ∀ i (h : i < (makeConsensus aln).length),
      (makeConsensus aln).get ⟨i, h⟩ = consensusChar aln i := by
    intro i h
    simp [makeConsensus]
  refine ⟨hlen, ?_⟩
  intro i h
  rw [hget i h]
  unfold consensusChar
  cases hm : maxNucleotide (column aln i) with
  | none =>
      left
      refine ⟨rfl, ?_⟩
      intro r hr hstd
      have hx : r.2.getD i ' ' ∈ column aln i := List.mem_map.mpr ⟨r, hr, rfl⟩
      have hocc : 0 < (column aln i).count (r.2.getD i ' ') :=
        List.count_pos_iff.mpr hx
      have hps := mem_presentStandard (column aln i) _ hstd hocc
      unfold maxNucleotide at hm
      rw [chooseMax_none_eq_none] at hm
      rw [hm] at hps
      simp at hps
  | some c =>
      right
      obtain ⟨hmem, hall⟩ := chooseMax_none_spec _ _ _ hm
      have hstd_c : c ∈ standardConsensusNucs := (List.mem_filter.mp hmem).1
      have hocc_c : 0 < (column aln i).count c := by
        have := (List.mem_filter.mp hmem).2
        simpa using this
      refine ⟨hstd_c, hocc_c, ?_⟩
      intro d hd
      by_cases hdc : 0 < (column aln i).count d
      · exact hall d (mem_presentStandard _ _ hd hdc)
      · omega

/-- Witness for C5 on the demo alignment (consensus "AACCGGTTAA"):
every column carries a maximal-tally standard symbol. -/
theorem makeConsensus_spec_witness :
    (makeConsensus demoRecords).length = alignLength demoRecords ∧
    ∀ i (h : i < (makeConsensus demoRecords).length),
      ((makeConsensus demoRecords).get ⟨i, h⟩ = 'N' ∧
        ∀ r ∈ demoRecords, r.2.getD i ' ' ∉ standardConsensusNucs) ∨
      ((makeConsensus demoRecords).get ⟨i, h⟩ ∈ standardConsensusNucs ∧
        0 < (column demoRecords i).count ((makeConsensus demoRecords).get ⟨i, h⟩) ∧
        ∀ d ∈ standardConsensusNucs,
          (column demoRecords i).count d ≤
            (column demoRecords i).count ((makeConsensus demoRecords).get ⟨i, h⟩)) :=
  makeConsensus_spec demoRecords (by decide)

/-- C7: for every stored alignment with a built consensus, running
`imputeMissing` twice in succession yields the same state (in particular the
same record sequences) as running it once; the consensus member is carried
along unrecomputed, so the second pass finds every symbol either standard or
already equal to the consensus symbol and changes nothing. -/
theorem imputeMissing_idempotent (p : ParseFASTA) :
    p.imputeMissing.imputeMissing = p.imputeMissing := by
  unfold ParseFASTA.imputeMissing
  simp [List.map_map, Function.comp, imputeSeq_idem]

/-- C6: the imputed symbol at record `k`, column `i`: left untouched when it
is in "AaCcTtGg-", replaced by the consensus symbol at `i` otherwise. -/
theorem imputeMissing_pointwise (p : ParseFASTA) (k i : Nat)
    (hk : k < p.fastaAlignment.length)
    (hi1 : i < (p.fastaAlignment.getD k ([], [])).2.length)
    (hi2 : i < p.consensus.length) :
    ((p.imputeMissing).fastaAlignment.getD k ([], [])).2.getD i ' ' =
      (if standardNucleotides.contains ((p.fastaAlignment.getD k ([], [])).2.getD i ' ')
       then (p.fastaAlignment.getD k ([], [])).2.getD i ' '
       else p.consensus.getD i ' ') := by
  have hmap := imputeMissing_getD p.fastaAlignment p.consensus k hk
  show ((p.fastaAlignment.map
      (fun r => (r.1, imputeSeq r.2 p.consensus))).getD k ([], [])).2.getD i ' ' = _
  rw [hmap]
  rw [imputeSeq_getD _ _ _ hi1 hi2]
  rfl

/-- Witness for C6: in `demoMissing` the 'N' at record 0, column 1 (not in
"AaCcTtGg-") is governed by the imputation rule at that cell. -/
theorem imputeMissing_pointwise_witness :
    ((demoMissing.imputeMissing).fastaAlignment.getD 0 ([], [])).2.getD 1 ' ' =
      (if standardNucleotides.contains
          ((demoMissing.fastaAlignment.getD 0 ([], [])).2.getD 1 ' ')
       then (demoMissing.fastaAlignment.getD 0 ([], [])).2.getD 1 ' '
       else demoMissing.consensus.getD 1 ' ') :=
  imputeMissing_pointwise demoMissing 0 1 (by decide) (by decide) (by decide)

/-- C1: contrary to the claim (and to the repository's own test at
src/tests/tests.cpp line 62, which does REQUIRE_THROWS on an out-of-range
start), `extractConsensusWindow` contains no bounds check and no throw
statement: with the demo alignment (consensus length 10) and the request
`start = 8, size = 4` (so `start + size = 12 > 10`) it does not fail with
`RangeError`, and the value the model returns is the truncated two-character
remainder — the in-C++ behaviour is an unchecked read past the consensus
end. -/
theorem extractConsensusWindow_oob_no_error :
    demoParse.extractConsensusWindow 8 4 = Except.ok ['A', 'A'] ∧
      isRangeError (demoParse.extractConsensusWindow 8 4) = false := by
  constructor
  · rfl
  · rfl

/-- C8: `extractSequence` fails with `AlignmentError` exactly when the
external aligner's result has `ref_begin < 0`, `ref_end < ref_begin`,
`query_begin < 0` or `query_end < query_begin`; on success the returned
`AlignmentStatistics` carries `referenceStart = ref_begin`,
`referenceLength = ref_end - ref_begin`, `queryStart = query_begin` and
`queryLength = query_end - query_begin` (all four fields `size_t`, hence
non-negative). -/
theorem extractSequence_spec (al : SswAlignment) :
    (isFailure (extractSequence al) = true ↔
      (al.ref_begin < 0 ∨ al.ref_end < al.ref_begin ∨
        al.query_begin < 0 ∨ al.query_end < al.query_begin)) ∧
    (∀ st : AlignmentStatistics, extractSequence al = Except.ok st →
      (st.referenceStart : Int) = al.ref_begin ∧
      (st.referenceLength : Int) = al.ref_end - al.ref_begin ∧
      (st.queryStart : Int) = al.query_begin ∧
      (st.queryLength : Int) = al.query_end - al.query_begin) := by
  unfold extractSequence
  by_cases h1 : al.ref_begin < 0
  · simp [h1, isFailure]
  · by_cases h2 : al.ref_end < al.ref_begin
    · simp [h1, h2, isFailure]
    · by_cases h3 : al.query_begin < 0
      · simp [h1, h2, h3, isFailure]
      · by_cases h4 : al.query_end < al.query_begin
        · simp [h1, h2, h3, h4, isFailure]
        · simp only [h1, h2, h3, h4, if_false, isFailure]
          refine ⟨by simp, ?_⟩
          intro st hst
          injection hst with hst
          subst hst
          push_neg at h1 h2 h3 h4
          refine ⟨?_, ?_, ?_, ?_⟩
          · exact Int.toNat_of_nonneg h1
          · exact Int.toNat_of_nonneg (by omega)
          · exact Int.toNat_of_nonneg h3
          · exact Int.toNat_of_nonneg (by omega)

/-- Witness for C8 at the concrete aligner result (2, 5, 1, 4): validation
succeeds and the packaged lengths are the coordinate differences. -/
theorem extractSequence_spec_witness :
    extractSequence ⟨2, 5, 1, 4⟩ = Except.ok ⟨2, 3, 1, 3⟩ ∧
      ((⟨2, 3, 1, 3⟩ : AlignmentStatistics).referenceLength : Int) = 5 - 2 ∧
      ((⟨2, 3, 1, 3⟩ : AlignmentStatistics).queryLength : Int) = 4 - 1 := by
  have h := (extractSequence_spec ⟨2, 5, 1, 4⟩).2 ⟨2, 3, 1, 3⟩ (by rfl)
  exact ⟨by rfl, h.2.1, h.2.2.2⟩

end AnalyzeAlignments
